import Mathlib

/-!
Verification of the resumable batch synchronization engine of
`src/collector.py` (bitcoin-coinbase-spend-analysis).

The embedding models:
* the SQLite store (`coinbase_spends` table with primary key
  `(coinbase_txid, output_index)` and `INSERT OR IGNORE` semantics, plus the
  `metadata` key/value table used for the `last_processed_height` checkpoint);
* the checkpoint manager (`get_last_processed_height` /
  `set_last_processed_height`), including the TEXT round-trip through
  Python's `str`/`int`;
* the BigQuery remote as a fixed dataset of joined rows, with
  `fetch_batch start end` returning the rows whose creation block height lies
  in `[start, end]` (the SQL `BETWEEN` filter);
* the `main` batching loop, its durable commit points (the data `commit()` at
  line 192 and the separate checkpoint `commit()` inside
  `set_last_processed_height`), and an error-injecting variant for the
  fetch/normalization failure paths;
* the scalar normalizer `to_int` over warehouse numerics (Python `int()`
  truncation semantics on exact rationals).
-/

namespace Collector

/-- One row of the `coinbase_spends` table; non-`Option` fields are the
`NOT NULL` columns of `CREATE_TABLE_SQL`. -/
structure SpendRecord where
  coinbase_txid : String
  output_index : Int
  value_sats : Int
  creation_block_height : Int
  creation_block_time : String
  spend_txid : Option String
  spend_block_height : Option Int
  spend_block_time : Option String
deriving DecidableEq, Repr

/-- The primary key of `coinbase_spends`: `(coinbase_txid, output_index)`. -/
def SpendRecord.key (r : SpendRecord) : String × Int :=
  (r.coinbase_txid, r.output_index)

/-- The SQLite database file: the `coinbase_spends` table (rows in insertion
order) and the `metadata` key/value table. -/
structure Store where
  coinbase_spends : List SpendRecord
  metadata : List (String × String)
deriving DecidableEq, Repr

/-- Key lookup in the `coinbase_spends` table (primary-key probe). -/
def keyPresent (tbl : List SpendRecord) (k : String × Int) : Bool :=
  tbl.any fun r => r.key = k

/-- First (and, by the primary-key constraint, only) record with the given
key. -/
def lookupRecord (tbl : List SpendRecord) (k : String × Int) :
    Option SpendRecord :=
  tbl.find? fun r => r.key = k

/-- `INSERT OR IGNORE INTO coinbase_spends ...` for one row: a no-op when the
primary key is already present, an append otherwise. -/
def insertOrIgnore (tbl : List SpendRecord) (r : SpendRecord) :
    List SpendRecord :=
  if keyPresent tbl r.key then tbl else tbl ++ [r]

/-- `conn.executemany(INSERT_DATA_SQL, rows)`: the rows are inserted in
order, each with insert-if-absent semantics. -/
def insertMany (tbl : List SpendRecord) (rows : List SpendRecord) :
    List SpendRecord :=
  rows.foldl insertOrIgnore tbl

/-- `SELECT value FROM metadata WHERE key = ?` (first matching row). -/
def selectMeta (m : List (String × String)) (k : String) : Option String :=
  (m.find? fun p => p.1 = k).map (·.2)

/-- `INSERT INTO metadata ... ON CONFLICT(key) DO UPDATE SET value = ...`:
update in place when the key exists, append otherwise. -/
def upsertMeta (m : List (String × String)) (k v : String) :
    List (String × String) :=
  if m.any (fun p => p.1 = k) then
    m.map fun p => if p.1 = k then (k, v) else p
  else
    m ++ [(k, v)]

/-! ### Python decimal text encoding

`set_last_processed_height` stores `str(height)` and
`get_last_processed_height` reads it back with `int(row[0])`.  We model the
relevant fragment of Python's `str`/`int` builtins on integers: decimal
digits with an optional leading sign. -/

/-- Little-endian decimal digits of a natural number (empty for `0`). -/
def natDigitsLE (n : Nat) : List Nat :=
  if h : n = 0 then [] else (n % 10) :: natDigitsLE (n / 10)
decreasing_by exact Nat.div_lt_self (Nat.pos_of_ne_zero h) (by omega)

/-- Value of a little-endian decimal digit list. -/
def digitsVal : List Nat → Nat
  | [] => 0
  | d :: ds => d + 10 * digitsVal ds

/-- The character for a decimal digit `d < 10`. -/
def digitChar10 (d : Nat) : Char := Char.ofNat (48 + d)

/-- Python `str(n)` for a natural number: big-endian digit characters,
`"0"` for zero. -/
def natStrChars (n : Nat) : List Char :=
  if n = 0 then ['0'] else ((natDigitsLE n).reverse.map digitChar10)

/-- Python `str(h)` for an integer. -/
def pyStrOfInt (h : Int) : String :=
  if h < 0 then ⟨'-' :: natStrChars h.natAbs⟩ else ⟨natStrChars h.natAbs⟩

/-- Decode one decimal digit character. -/
def charDigit10 (c : Char) : Option Nat :=
  if 48 ≤ c.toNat ∧ c.toNat ≤ 57 then some (c.toNat - 48) else none

/-- Decode a nonempty big-endian string of decimal digit characters. -/
def decDigitsBE (cs : List Char) : Option Nat :=
  if cs.isEmpty then none
  else cs.foldlM (fun acc c => (charDigit10 c).map fun d => 10 * acc + d) 0

/-- Python `int(s)` on a string: optional sign followed by at least one
decimal digit; raises `ValueError` (here `none`) otherwise. -/
def pyIntOfStr (s : String) : Option Int :=
  match s.data with
  | [] => none
  | c :: rest =>
    if c = '-' then (decDigitsBE rest).map fun n : Nat => -(n : Int)
    else if c = '+' then (decDigitsBE rest).map fun n : Nat => (n : Int)
    else (decDigitsBE (c :: rest)).map fun n : Nat => (n : Int)

/-- The single metadata key used by the engine. -/
def ckptKey : String := "last_processed_height"

/-- `get_last_processed_height`: `-1` when no checkpoint row exists,
otherwise `int(row[0])`; `none` models the `ValueError` raised on a
corrupt value. -/
def get_last_processed_height (s : Store) : Option Int :=
  match selectMeta s.metadata ckptKey with
  | none => some (-1)
  | some v => pyIntOfStr v

/-- `set_last_processed_height`: upsert `str(height)` and commit. -/
def set_last_processed_height (s : Store) (height : Int) : Store :=
  { s with metadata := upsertMeta s.metadata ckptKey (pyStrOfInt height) }

/-! ### Round-trip of the checkpoint TEXT encoding -/

lemma digitsVal_natDigitsLE (n : Nat) : digitsVal (natDigitsLE n) = n := by
  induction n using Nat.strong_induction_on with
  | _ n ih =>
    rw [natDigitsLE]
    by_cases h : n = 0
    · simp [h, digitsVal]
    · rw [dif_neg h]
      rw [digitsVal, ih (n / 10) (Nat.div_lt_self (Nat.pos_of_ne_zero h) (by omega))]
      omega

lemma natDigitsLE_lt_ten (n : Nat) : ∀ d ∈ natDigitsLE n, d < 10 := by
  induction n using Nat.strong_induction_on with
  | _ n ih =>
    rw [natDigitsLE]
    by_cases h : n = 0
    · simp [h]
    · rw [dif_neg h]
      intro d hd
      rcases List.mem_cons.mp hd with h1 | h2
      · omega
      · exact ih (n / 10) (Nat.div_lt_self (Nat.pos_of_ne_zero h) (by omega)) d h2

lemma natDigitsLE_ne_nil {n : Nat} (h : n ≠ 0) : natDigitsLE n ≠ [] := by
  rw [natDigitsLE, dif_neg h]
  simp

lemma charDigit10_digitChar10 {d : Nat} (hd : d < 10) :
    charDigit10 (digitChar10 d) = some d := by
  interval_cases d <;> decide

lemma digitChar10_not_sign {d : Nat} (hd : d < 10) :
    digitChar10 d ≠ '-' ∧ digitChar10 d ≠ '+' := by
  interval_cases d <;> decide

lemma foldlM_digits (ds : List Nat) (h : ∀ d ∈ ds, d < 10) :
    ∀ acc : Nat,
      List.foldlM (fun acc c => (charDigit10 c).map fun d => 10 * acc + d) acc
        (ds.map digitChar10) =
      some (ds.foldl (fun a d => 10 * a + d) acc) := by
  induction ds with
  | nil => intro acc; rfl
  | cons d ds ih =>
    intro acc
    have hd : d < 10 := h d (List.mem_cons_self d ds)
    simp only [List.map_cons, List.foldlM_cons, charDigit10_digitChar10 hd,
      Option.map_some', Option.bind_eq_bind, Option.some_bind, List.foldl_cons]
    exact ih (fun x hx => h x (List.mem_cons_of_mem d hx)) (10 * acc + d)

lemma foldl_reverse_digitsVal (ds : List Nat) :
    (ds.reverse).foldl (fun a d => 10 * a + d) 0 = digitsVal ds := by
  induction ds with
  | nil => rfl
  | cons d ds ih =>
    rw [List.reverse_cons, List.foldl_append, ih]
    simp [digitsVal]
    omega

lemma decDigitsBE_natStrChars (n : Nat) : decDigitsBE (natStrChars n) = some n := by
  by_cases h0 : n = 0
  · subst h0; decide
  · rw [natStrChars, if_neg h0]
    have hne : (natDigitsLE n).reverse.map digitChar10 ≠ [] := by
      simp [natDigitsLE_ne_nil h0]
    rw [decDigitsBE, if_neg (by simpa [List.isEmpty_iff] using hne)]
    rw [foldlM_digits _ (fun d hd => natDigitsLE_lt_ten n d (List.mem_reverse.mp hd))]
    rw [foldl_reverse_digitsVal, digitsVal_natDigitsLE]

lemma natStrChars_mem_not_sign (n : Nat) :
    ∀ c ∈ natStrChars n, c ≠ '-' ∧ c ≠ '+' := by
  intro c hc
  rw [natStrChars] at hc
  by_cases h0 : n = 0
  · rw [if_pos h0] at hc
    simp at hc
    subst hc; decide
  · rw [if_neg h0] at hc
    rcases List.mem_map.mp hc with ⟨d, hd, rfl⟩
    exact digitChar10_not_sign (natDigitsLE_lt_ten n d (List.mem_reverse.mp hd))

lemma natStrChars_ne_nil (n : Nat) : natStrChars n ≠ [] := by
  rw [natStrChars]
  by_cases h0 : n = 0
  · simp [h0]
  · simp [h0, natDigitsLE_ne_nil h0]

/-- `int(str(h)) = h`: the checkpoint value survives its TEXT encoding. -/
lemma pyIntOfStr_pyStrOfInt (h : Int) : pyIntOfStr (pyStrOfInt h) = some h := by
  rw [pyStrOfInt]
  by_cases hneg : h < 0
  · rw [if_pos hneg]
    have e1 : pyIntOfStr ⟨'-' :: natStrChars h.natAbs⟩
        = (decDigitsBE (natStrChars h.natAbs)).map (fun n : Nat => -(n : Int)) := rfl
    rw [e1, decDigitsBE_natStrChars, Option.map_some']
    simp only [Option.some.injEq]
    omega
  · rw [if_neg hneg]
    rcases hcs : natStrChars h.natAbs with _ | ⟨c, rest⟩
    · exact absurd hcs (natStrChars_ne_nil _)
    · have hsign := natStrChars_mem_not_sign h.natAbs c (hcs ▸ List.mem_cons_self c rest)
      have e2 : pyIntOfStr ⟨c :: rest⟩
          = if c = '-' then (decDigitsBE rest).map (fun n : Nat => -(n : Int))
            else if c = '+' then (decDigitsBE rest).map (fun n : Nat => (n : Int))
            else (decDigitsBE (c :: rest)).map (fun n : Nat => (n : Int)) := rfl
      rw [e2, if_neg hsign.1, if_neg hsign.2, ← hcs, decDigitsBE_natStrChars,
        Option.map_some']
      simp only [Option.some.injEq]
      omega

lemma selectMeta_upsertMeta_same (m : List (String × String)) (k v : String) :
    selectMeta (upsertMeta m k v) k = some v := by
  rw [upsertMeta]
  by_cases hany : m.any (fun p => p.1 = k)
  · rw [if_pos hany]
    induction m with
    | nil => simp at hany
    | cons p m ih =>
      by_cases hp : p.1 = k
      · simp [selectMeta, List.find?, hp]
      · have hm : m.any (fun p => p.1 = k) := by
          simpa [List.any_cons, hp] using hany
        simp only [List.map_cons, if_neg hp]
        rw [selectMeta, List.find?]
        simp only [hp, decide_eq_true_eq, decide_False]
        exact ih hm
  · rw [if_neg hany]
    induction m with
    | nil => simp [selectMeta, List.find?]
    | cons p m ih =>
      have hp : ¬ p.1 = k := by
        intro hpk
        exact hany (by simp [List.any_cons, hpk])
      have hm : ¬ m.any (fun p => p.1 = k) := by
        intro hmk
        exact hany (by simp [List.any_cons, hmk])
      rw [List.cons_append, selectMeta, List.find?]
      simp only [hp, decide_False]
      exact ih hm

/-- The value stored for the checkpoint key survives upsert + select. -/
lemma get_set_roundtrip (s : Store) (h : Int) :
    get_last_processed_height (set_last_processed_height s h) = some h := by
  rw [set_last_processed_height, get_last_processed_height]
  simp only [selectMeta_upsertMeta_same]
  exact pyIntOfStr_pyStrOfInt h

/-! ### The remote warehouse and the sync driver

The BigQuery side is modelled as a fixed dataset: the maximum available
block height (`get_max_block_height`) and the full result of the
coinbase/spend join, one normalized row per joined result.  `fetch_batch`
restricts it with the `WHERE tx.block_number BETWEEN start_height AND
end_height` filter of `QUERY_TEMPLATE`. -/

/-- The remote dataset as seen through the two query shapes the collector
issues. -/
structure Remote where
  maxHeight : Int
  rows : List SpendRecord
deriving DecidableEq, Repr

/-- `fetch_batch client start end`: the joined rows whose creation block
height lies in `[start, end]`. -/
def fetch_batch (R : Remote) (start e : Int) : List SpendRecord :=
  R.rows.filter fun r =>
    decide (start ≤ r.creation_block_height ∧ r.creation_block_height ≤ e)

/-- The batch boundaries produced by the `while batch_start <= end` loop for
batch size `B ≥ 1`: `batch_end = min (batch_start + B - 1) end`, then
`batch_start = batch_end + 1`.  (For `B ≤ 0` the loop never terminates; that
regime is analysed separately through `nextBatchStart`.) -/
def batches (s e B : Int) : List (Int × Int) :=
  if h : s ≤ e ∧ 1 ≤ B then
    (s, min (s + B - 1) e) :: batches (min (s + B - 1) e + 1) e B
  else []
termination_by (e + 1 - s).toNat
decreasing_by omega

/-- The first durable commit of a batch: `conn.executemany(INSERT_DATA_SQL,
rows_to_insert); conn.commit()`. -/
def processBatch (R : Remote) (s : Store) (p : Int × Int) : Store :=
  { s with coinbase_spends := insertMany s.coinbase_spends (fetch_batch R p.1 p.2) }

/-- The loop body iterated over the remaining batches: data commit followed
by the separate checkpoint commit `set_last_processed_height(conn,
batch_end)`. -/
def runBatches (R : Remote) : Store → List (Int × Int) → Store
  | s, [] => s
  | s, p :: rest =>
      runBatches R (set_last_processed_height (processBatch R s p) p.2) rest

/-- Every durable state the store passes through while the loop processes
the given batches: the state at entry, then for each batch the state after
its data commit and (via the recursive call) the state after its checkpoint
commit.  A crash can leave the database at exactly these states. -/
def durStates (R : Remote) : Store → List (Int × Int) → List Store
  | s, [] => [s]
  | s, p :: rest =>
      s :: processBatch R s p ::
        durStates R (set_last_processed_height (processBatch R s p) p.2) rest

/-- One invocation of `main` run to completion: read the checkpoint (a
`ValueError` aborts with no writes), no-op when `last_height >= max_height`,
otherwise process the batches of `[last+1, max]`. -/
def main (R : Remote) (B : Int) (s : Store) : Store :=
  match get_last_processed_height s with
  | none => s
  | some last =>
    if R.maxHeight ≤ last then s
    else runBatches R s (batches (last + 1) R.maxHeight B)

/-- The durable states of one invocation of `main`. -/
def mainDurStates (R : Remote) (B : Int) (s : Store) : List Store :=
  match get_last_processed_height s with
  | none => [s]
  | some last =>
    if R.maxHeight ≤ last then [s]
    else durStates R s (batches (last + 1) R.maxHeight B)

/-- The ranges `main` passes to `fetch_batch` during one invocation. -/
def fetchedRanges (R : Remote) (B : Int) (s : Store) : List (Int × Int) :=
  match get_last_processed_height s with
  | none => []
  | some last =>
    if R.maxHeight ≤ last then []
    else batches (last + 1) R.maxHeight B

/-- The loop-variable update `batch_start = batch_end + 1` with
`batch_end = min(batch_start + BATCH_SIZE - 1, end)`. -/
def nextBatchStart (B e s : Int) : Int :=
  min (s + B - 1) e + 1

/-! ### Unfolding the driver -/

lemma main_eq_noop {R : Remote} {B : Int} {s : Store} {c : Int}
    (hc : get_last_processed_height s = some c) (hmax : R.maxHeight ≤ c) :
    main R B s = s := by
  rw [main]
  simp only [hc]
  rw [if_pos hmax]

lemma main_eq_run {R : Remote} {B : Int} {s : Store} {c : Int}
    (hc : get_last_processed_height s = some c) (hlt : c < R.maxHeight) :
    main R B s = runBatches R s (batches (c + 1) R.maxHeight B) := by
  rw [main]
  simp only [hc]
  rw [if_neg (not_le.mpr hlt)]

lemma mainDurStates_eq_noop {R : Remote} {B : Int} {s : Store} {c : Int}
    (hc : get_last_processed_height s = some c) (hmax : R.maxHeight ≤ c) :
    mainDurStates R B s = [s] := by
  rw [mainDurStates]
  simp only [hc]
  rw [if_pos hmax]

lemma mainDurStates_eq_run {R : Remote} {B : Int} {s : Store} {c : Int}
    (hc : get_last_processed_height s = some c) (hlt : c < R.maxHeight) :
    mainDurStates R B s = durStates R s (batches (c + 1) R.maxHeight B) := by
  rw [mainDurStates]
  simp only [hc]
  rw [if_neg (not_le.mpr hlt)]

lemma fetchedRanges_eq_noop {R : Remote} {B : Int} {s : Store} {c : Int}
    (hc : get_last_processed_height s = some c) (hmax : R.maxHeight ≤ c) :
    fetchedRanges R B s = [] := by
  rw [fetchedRanges]
  simp only [hc]
  rw [if_pos hmax]

lemma fetchedRanges_eq_run {R : Remote} {B : Int} {s : Store} {c : Int}
    (hc : get_last_processed_height s = some c) (hlt : c < R.maxHeight) :
    fetchedRanges R B s = batches (c + 1) R.maxHeight B := by
  rw [fetchedRanges]
  simp only [hc]
  rw [if_neg (not_le.mpr hlt)]

/-! ### Structure of the batch plan -/

lemma batches_of_not {s e B : Int} (h : ¬(s ≤ e ∧ 1 ≤ B)) : batches s e B = [] := by
  rw [batches]
  exact dif_neg h

lemma batches_of_le {s e B : Int} (hse : s ≤ e) (hB : 1 ≤ B) :
    batches s e B
      = (s, min (s + B - 1) e) :: batches (min (s + B - 1) e + 1) e B := by
  rw [batches]
  exact dif_pos ⟨hse, hB⟩

lemma batches_mem {e B : Int} :
    ∀ (n : Nat) (s : Int), (e + 1 - s).toNat = n →
      ∀ p ∈ batches s e B,
        p.2 = min (p.1 + B - 1) e ∧ s ≤ p.1 ∧ p.1 ≤ p.2 ∧ p.2 ≤ e := by
  intro n
  induction n using Nat.strong_induction_on with
  | _ n ih =>
    intro s hn p hp
    by_cases hc : s ≤ e ∧ 1 ≤ B
    · rw [batches_of_le hc.1 hc.2] at hp
      rcases List.mem_cons.mp hp with rfl | hp'
      · refine ⟨rfl, le_refl _, ?_, min_le_right _ _⟩
        simp only
        omega
      · have hd : (e + 1 - (min (s + B - 1) e + 1)).toNat < n := by omega
        have := ih _ hd (min (s + B - 1) e + 1) rfl p hp'
        refine ⟨this.1, ?_, this.2.2⟩
        omega
    · rw [batches_of_not hc] at hp
      cases hp

lemma batches_head {s e B : Int} (hse : s ≤ e) (hB : 1 ≤ B) :
    (batches s e B).head? = some (s, min (s + B - 1) e) := by
  rw [batches_of_le hse hB]
  rfl

lemma batches_chain {e B : Int} :
    ∀ (n : Nat) (s : Int), (e + 1 - s).toNat = n →
      List.Chain' (fun p q => q.1 = p.2 + 1) (batches s e B) := by
  intro n
  induction n using Nat.strong_induction_on with
  | _ n ih =>
    intro s hn
    by_cases hc : s ≤ e ∧ 1 ≤ B
    · rw [batches_of_le hc.1 hc.2]
      have hd : (e + 1 - (min (s + B - 1) e + 1)).toNat < n := by omega
      refine List.chain'_cons'.mpr ⟨?_, ih _ hd (min (s + B - 1) e + 1) rfl⟩
      intro q hq
      by_cases hc' : min (s + B - 1) e + 1 ≤ e ∧ 1 ≤ B
      · rw [batches_head hc'.1 hc'.2] at hq
        simp only [Option.mem_def, Option.some.injEq] at hq
        rw [← hq]
      · rw [batches_of_not hc'] at hq
        simp at hq
    · rw [batches_of_not hc]
      exact List.chain'_nil

lemma batches_pairwise {e B : Int} (hB : 1 ≤ B) :
    ∀ (n : Nat) (s : Int), (e + 1 - s).toNat = n →
      List.Pairwise (fun p q => p.2 < q.1) (batches s e B) := by
  intro n
  induction n using Nat.strong_induction_on with
  | _ n ih =>
    intro s hn
    by_cases hc : s ≤ e ∧ 1 ≤ B
    · rw [batches_of_le hc.1 hc.2]
      have hd : (e + 1 - (min (s + B - 1) e + 1)).toNat < n := by omega
      refine List.pairwise_cons.mpr ⟨?_, ih _ hd (min (s + B - 1) e + 1) rfl⟩
      intro q hq
      have := (batches_mem _ (min (s + B - 1) e + 1) rfl q hq).2.1
      simp only
      omega
    · rw [batches_of_not hc]
      exact List.Pairwise.nil

lemma batches_cover {e B : Int} (hB : 1 ≤ B) :
    ∀ (n : Nat) (s : Int), (e + 1 - s).toNat = n →
      ∀ hgt : Int, s ≤ hgt → hgt ≤ e →
        ∃ p ∈ batches s e B, p.1 ≤ hgt ∧ hgt ≤ p.2 := by
  intro n
  induction n using Nat.strong_induction_on with
  | _ n ih =>
    intro s hn hgt h1 h2
    have hse : s ≤ e := le_trans h1 h2
    rw [batches_of_le hse hB]
    by_cases hin : hgt ≤ min (s + B - 1) e
    · exact ⟨(s, min (s + B - 1) e), List.mem_cons_self _ _, h1, hin⟩
    · have hd : (e + 1 - (min (s + B - 1) e + 1)).toNat < n := by omega
      obtain ⟨p, hp, hp1, hp2⟩ :=
        ih _ hd (min (s + B - 1) e + 1) rfl hgt (by omega) h2
      exact ⟨p, List.mem_cons_of_mem _ hp, hp1, hp2⟩

lemma batches_getLast {e B : Int} :
    ∀ (n : Nat) (s : Int), (e + 1 - s).toNat = n →
      ∀ p, (batches s e B).getLast? = some p → p.2 = e := by
  intro n
  induction n using Nat.strong_induction_on with
  | _ n ih =>
    intro s hn p hp
    by_cases hc : s ≤ e ∧ 1 ≤ B
    · rw [batches_of_le hc.1 hc.2] at hp
      by_cases hc' : min (s + B - 1) e + 1 ≤ e ∧ 1 ≤ B
      · rcases hL : batches (min (s + B - 1) e + 1) e B with _ | ⟨q, rest⟩
        · exact absurd hL (by rw [batches_of_le hc'.1 hc'.2]; simp)
        · rw [hL, List.getLast?_cons_cons] at hp
          have hd : (e + 1 - (min (s + B - 1) e + 1)).toNat < n := by omega
          exact ih _ hd (min (s + B - 1) e + 1) rfl p (by rw [hL]; exact hp)
      · have hnil : batches (min (s + B - 1) e + 1) e B = [] := batches_of_not hc'
        rw [hnil, List.getLast?_singleton] at hp
        have hps : (s, min (s + B - 1) e) = p := by
          simpa using hp
        rw [← hps]
        simp only
        omega
    · rw [batches_of_not hc] at hp
      simp at hp

lemma batches_concrete :
    batches 0 2500 1000 = [(0, 999), (1000, 1999), (2000, 2500)] := by
  have hA : batches (0 : Int) 2500 1000 = (0, 999) :: batches 1000 2500 1000 := by
    rw [batches_of_le (by norm_num) (by norm_num)]
    have hm : min (0 + 1000 - 1 : Int) 2500 = 999 := by omega
    rw [hm]
    norm_num
  have hB2 : batches (1000 : Int) 2500 1000
      = (1000, 1999) :: batches 2000 2500 1000 := by
    rw [batches_of_le (by norm_num) (by norm_num)]
    have hm : min (1000 + 1000 - 1 : Int) 2500 = 1999 := by omega
    rw [hm]
    norm_num
  have hC : batches (2000 : Int) 2500 1000 = [(2000, 2500)] := by
    rw [batches_of_le (by norm_num) (by norm_num)]
    have hm : min (2000 + 1000 - 1 : Int) 2500 = 2500 := by omega
    rw [hm, batches_of_not (by norm_num)]
  rw [hA, hB2, hC]

end Collector

namespace Collector

/-- **C5.** For every `start ≤ end` and batch size `B ≥ 1`, the batch
planner partitions `[start, end]` into contiguous batches with boundaries
`[s, min (s + B - 1) end]`, advancing sequentially and strictly increasing,
with no overlap, no gaps and full coverage of `[start, end]`; in particular
with checkpoint `-1`, max height `2500` and `B = 1000` it produces exactly
the batches `[0,999], [1000,1999], [2000,2500]` and final checkpoint
`2500`. -/
theorem batch_planner_partition (s e B : Int) (hse : s ≤ e) (hB : 1 ≤ B) :
    (∀ p ∈ batches s e B, p.2 = min (p.1 + B - 1) e) ∧
    (batches s e B).head? = some (s, min (s + B - 1) e) ∧
    List.Chain' (fun p q => q.1 = p.2 + 1) (batches s e B) ∧
    List.Pairwise (fun p q => p.2 < q.1) (batches s e B) ∧
    (∀ p ∈ batches s e B, s ≤ p.1 ∧ p.1 ≤ p.2 ∧ p.2 ≤ e) ∧
    (∀ hgt : Int, (s ≤ hgt ∧ hgt ≤ e) ↔
      ∃ p ∈ batches s e B, p.1 ≤ hgt ∧ hgt ≤ p.2) ∧
    (∀ p, (batches s e B).getLast? = some p → p.2 = e) ∧
    batches 0 2500 1000 = [(0, 999), (1000, 1999), (2000, 2500)] ∧
    get_last_processed_height (main ⟨2500, []⟩ 1000 ⟨[], []⟩) = some 2500 := by
  refine ⟨?_, batches_head hse hB, batches_chain _ s rfl, batches_pairwise hB _ s rfl,
    ?_, ?_, batches_getLast _ s rfl, batches_concrete, ?_⟩
  · intro p hp
    exact (batches_mem _ s rfl p hp).1
  · intro p hp
    have h := batches_mem _ s rfl p hp
    exact ⟨h.2.1, h.2.2⟩
  · intro hgt
    constructor
    · intro ⟨h1, h2⟩
      exact batches_cover hB _ s rfl hgt h1 h2
    · intro ⟨p, hp, h1, h2⟩
      have h := batches_mem _ s rfl p hp
      exact ⟨le_trans h.2.1 h1, le_trans h2 h.2.2.2⟩
  · have hg : get_last_processed_height (⟨[], []⟩ : Store) = some (-1) := rfl
    rw [main_eq_run hg (by norm_num)]
    have h0 : (-1 : Int) + 1 = 0 := by norm_num
    rw [h0, batches_concrete]
    simp only [runBatches]
    exact get_set_roundtrip _ _

/-- Witness for C5 at `start = 0`, `end = 2500`, `B = 1000`. -/
theorem batch_planner_partition_witness :
    (∀ p ∈ batches 0 2500 1000, p.2 = min (p.1 + 1000 - 1) 2500) ∧
    (batches 0 2500 1000).head? = some (0, min (0 + 1000 - 1) 2500) ∧
    List.Chain' (fun p q => q.1 = p.2 + 1) (batches 0 2500 1000) ∧
    List.Pairwise (fun p q => p.2 < q.1) (batches 0 2500 1000) ∧
    (∀ p ∈ batches 0 2500 1000, 0 ≤ p.1 ∧ p.1 ≤ p.2 ∧ p.2 ≤ 2500) ∧
    (∀ hgt : Int, (0 ≤ hgt ∧ hgt ≤ 2500) ↔
      ∃ p ∈ batches 0 2500 1000, p.1 ≤ hgt ∧ hgt ≤ p.2) ∧
    (∀ p, (batches 0 2500 1000).getLast? = some p → p.2 = 2500) ∧
    batches 0 2500 1000 = [(0, 999), (1000, 1999), (2000, 2500)] ∧
    get_last_processed_height (main ⟨2500, []⟩ 1000 ⟨[], []⟩) = some 2500 :=
  batch_planner_partition 0 2500 1000 (by norm_num) (by norm_num)

/-- **C8.** Whenever the stored checkpoint is at least the maximum available
remote height, a run is a successful no-op: zero range fetches, zero store
writes, store and checkpoint unchanged. -/
theorem noop_when_synced (R : Remote) (B : Int) (s : Store) (c : Int)
    (hc : get_last_processed_height s = some c) (hmax : R.maxHeight ≤ c) :
    main R B s = s ∧ mainDurStates R B s = [s] ∧ fetchedRanges R B s = [] :=
  ⟨main_eq_noop hc hmax, mainDurStates_eq_noop hc hmax, fetchedRanges_eq_noop hc hmax⟩

/-- Witness for C8: checkpoint 5, remote height 3. -/
theorem noop_when_synced_witness :
    main ⟨3, []⟩ 1000 ⟨[], [("last_processed_height", "5")]⟩
        = ⟨[], [("last_processed_height", "5")]⟩ ∧
    mainDurStates ⟨3, []⟩ 1000 ⟨[], [("last_processed_height", "5")]⟩
        = [⟨[], [("last_processed_height", "5")]⟩] ∧
    fetchedRanges ⟨3, []⟩ 1000 ⟨[], [("last_processed_height", "5")]⟩ = [] :=
  noop_when_synced ⟨3, []⟩ 1000 ⟨[], [("last_processed_height", "5")]⟩ 5
    (by decide) (by decide)

/-- **C9.** `get_last_processed_height` returns `-1` when no checkpoint row
is present, and for every integer `h`, reading after
`set_last_processed_height h` returns exactly `h`: the value round-trips
through its TEXT encoding in the metadata table. -/
theorem checkpoint_get_set (s : Store)
    (hnone : selectMeta s.metadata ckptKey = none) :
    get_last_processed_height s = some (-1) ∧
    (∀ (t : Store) (v : Int),
      get_last_processed_height (set_last_processed_height t v) = some v) := by
  constructor
  · rw [get_last_processed_height, hnone]
  · exact get_set_roundtrip

/-- Witness for C9 at the empty store and `h = 42`. -/
theorem checkpoint_get_set_witness :
    get_last_processed_height ⟨[], []⟩ = some (-1) ∧
    (∀ (t : Store) (v : Int),
      get_last_processed_height (set_last_processed_height t v) = some v) :=
  checkpoint_get_set ⟨[], []⟩ rfl

/-! ### Insert-if-absent frame properties -/

/-- A lifetime of sync passes: each pass is one invocation of `main`
against some remote snapshot with some batch size. -/
def runMany (s : Store) (runs : List (Remote × Int)) : Store :=
  runs.foldl (fun t p => main p.1 p.2 t) s

lemma lookupRecord_insertOrIgnore {tbl : List SpendRecord} {k : String × Int}
    {rec : SpendRecord} (r : SpendRecord)
    (h : lookupRecord tbl k = some rec) :
    lookupRecord (insertOrIgnore tbl r) k = some rec := by
  rw [insertOrIgnore]
  by_cases hp : keyPresent tbl r.key
  · rw [if_pos hp]
    exact h
  · rw [if_neg hp, lookupRecord, List.find?_append]
    rw [lookupRecord] at h
    rw [h]
    rfl

lemma lookupRecord_insertMany {k : String × Int} {rec : SpendRecord}
    (rows : List SpendRecord) :
    ∀ tbl, lookupRecord tbl k = some rec →
      lookupRecord (insertMany tbl rows) k = some rec := by
  induction rows with
  | nil => intro tbl h; exact h
  | cons r rows ih =>
    intro tbl h
    exact ih (insertOrIgnore tbl r) (lookupRecord_insertOrIgnore r h)

lemma lookupRecord_runBatches {R : Remote} {k : String × Int}
    {rec : SpendRecord} (L : List (Int × Int)) :
    ∀ s : Store, lookupRecord s.coinbase_spends k = some rec →
      lookupRecord (runBatches R s L).coinbase_spends k = some rec := by
  induction L with
  | nil => intro s h; exact h
  | cons p L ih =>
    intro s h
    rw [runBatches]
    exact ih _ (lookupRecord_insertMany _ _ h)

lemma main_cases (R : Remote) (B : Int) (s : Store) :
    main R B s = s ∨
      ∃ c, get_last_processed_height s = some c ∧ c < R.maxHeight ∧
        main R B s = runBatches R s (batches (c + 1) R.maxHeight B) := by
  cases hg : get_last_processed_height s with
  | none =>
    left
    rw [main]
    simp only [hg]
  | some c =>
    by_cases hm : R.maxHeight ≤ c
    · exact Or.inl (main_eq_noop hg hm)
    · exact Or.inr ⟨c, rfl, not_le.mp hm, main_eq_run hg (not_le.mp hm)⟩

lemma lookupRecord_main {R : Remote} {B : Int} {k : String × Int}
    {rec : SpendRecord} (s : Store)
    (h : lookupRecord s.coinbase_spends k = some rec) :
    lookupRecord (main R B s).coinbase_spends k = some rec := by
  rcases main_cases R B s with hm | ⟨c, _, _, hm⟩
  · rw [hm]; exact h
  · rw [hm]; exact lookupRecord_runBatches _ s h

lemma lookupRecord_runMany {k : String × Int} {rec : SpendRecord}
    (runs : List (Remote × Int)) :
    ∀ s : Store, lookupRecord s.coinbase_spends k = some rec →
      lookupRecord (runMany s runs).coinbase_spends k = some rec := by
  induction runs with
  | nil => intro s h; exact h
  | cons p runs ih =>
    intro s h
    rw [runMany, List.foldl_cons]
    exact ih _ (lookupRecord_main s h)

/-- **C6.** For every record key already present in the store, a later
insert of any record with the same key is a no-op, and every field of the
existing record — spend-status fields included — is left unchanged by all
subsequent sync passes. -/
theorem insert_if_absent_frame :
    (∀ (tbl : List SpendRecord) (r r' : SpendRecord), r'.key = r.key →
      keyPresent tbl r.key = true → insertOrIgnore tbl r' = tbl) ∧
    (∀ (s : Store) (k : String × Int) (rec : SpendRecord)
        (runs : List (Remote × Int)),
      lookupRecord s.coinbase_spends k = some rec →
      lookupRecord (runMany s runs).coinbase_spends k = some rec) := by
  constructor
  · intro tbl r r' hk hp
    rw [insertOrIgnore, hk, if_pos hp]
  · intro s k rec runs h
    exact lookupRecord_runMany runs s h

/-- A record observed unspent in an early pass. -/
def recUnspent : SpendRecord := ⟨"a", 0, 50, 0, "t0", none, none, none⟩

/-- The same key as later reported by the remote, now spent and with
different fields. -/
def recSpent : SpendRecord := ⟨"a", 0, 99, 1, "t1", some "x", some 9, some "t9"⟩

/-- Witness for C6: a stored record with key `("a", 0)` survives a sync pass
whose remote reports the same key as spent with different fields. -/
theorem insert_if_absent_frame_witness :
    insertOrIgnore [recUnspent] recSpent = [recUnspent] ∧
    lookupRecord
        (runMany ⟨[recUnspent], [("last_processed_height", "0")]⟩
          [(⟨1, [recSpent]⟩, 1000)]).coinbase_spends ("a", 0)
      = some recUnspent :=
  ⟨insert_if_absent_frame.1 [recUnspent] recUnspent recSpent (by decide) (by decide),
   insert_if_absent_frame.2 ⟨[recUnspent], [("last_processed_height", "0")]⟩
     ("a", 0) recUnspent [(⟨1, [recSpent]⟩, 1000)] (by decide)⟩

/-! ### Termination of the batching loop -/

lemma batches_length {e B : Int} (hB : 1 ≤ B) :
    ∀ (n : Nat) (s : Int), (e + 1 - s).toNat = n → s ≤ e →
      (batches s e B).length
        = ((e + 1 - s).toNat + (B.toNat - 1)) / B.toNat := by
  intro n
  induction n using Nat.strong_induction_on with
  | _ n ih =>
    intro s hn hse
    rw [batches_of_le hse hB, List.length_cons]
    by_cases hone : e ≤ s + B - 1
    · have hmin : min (s + B - 1) e = e := by omega
      rw [hmin, batches_of_not (by omega), List.length_nil]
      have h1 : 1 * B.toNat ≤ (e + 1 - s).toNat + (B.toNat - 1) := by omega
      have h2 : (e + 1 - s).toNat + (B.toNat - 1) < (1 + 1) * B.toNat := by omega
      rw [Nat.div_eq_of_lt_le h1 h2]
    · have hmin : min (s + B - 1) e = s + B - 1 := by omega
      rw [hmin]
      have hd : (e + 1 - (s + B - 1 + 1)).toNat < n := by omega
      rw [ih _ hd (s + B - 1 + 1) rfl (by omega)]
      have hL : (e + 1 - (s + B - 1 + 1)).toNat + (B.toNat - 1)
          = (e + 1 - s).toNat - 1 - B.toNat + B.toNat := by omega
      have hR : (e + 1 - s).toNat + (B.toNat - 1)
          = ((e + 1 - s).toNat - 1 - B.toNat + B.toNat) + B.toNat := by omega
      rw [hL, hR, Nat.add_div_right _ (by omega), Nat.add_div_right _ (by omega),
        Nat.add_div_right _ (by omega)]

lemma nextBatchStart_exit {e B : Int} (hB : 1 ≤ B) (s : Int) :
    ∀ n : Nat, e < (nextBatchStart B e)^[n] s ∨ s + n ≤ (nextBatchStart B e)^[n] s := by
  intro n
  induction n with
  | zero => right; simp
  | succ n ihn =>
    rw [Function.iterate_succ_apply']
    rcases ihn with h | h
    · left
      rw [nextBatchStart]
      omega
    · by_cases he : e < (nextBatchStart B e)^[n] s
      · left
        rw [nextBatchStart]
        omega
      · right
        rw [nextBatchStart]
        omega

lemma nextBatchStart_stuck {e B : Int} (hB : B ≤ 0) (s : Int) (hse : s ≤ e) :
    ∀ n : Nat, (nextBatchStart B e)^[n] s ≤ e := by
  intro n
  induction n with
  | zero => simpa
  | succ n ihn =>
    rw [Function.iterate_succ_apply', nextBatchStart]
    omega

/-- **C10.** The batching loop terminates for every `start ≤ end` iff the
configured batch size `B` is at least 1: for `B ≥ 1` it performs exactly
`ceil((end - start + 1) / B)` iterations (and the loop variable eventually
exceeds `end`), while `B ≤ 0` keeps `batch_start ≤ end` forever — in
particular `B = 0` repeats the same `batch_start` on every iteration. -/
theorem batching_loop_termination (s e B : Int) (hse : s ≤ e) :
    (1 ≤ B →
      (batches s e B).length = ((e + 1 - s).toNat + (B.toNat - 1)) / B.toNat ∧
      ∃ n : Nat, e < (nextBatchStart B e)^[n] s) ∧
    (B ≤ 0 → ∀ n : Nat, (nextBatchStart B e)^[n] s ≤ e) ∧
    (B = 0 → nextBatchStart B e s = s) := by
  refine ⟨fun hB => ⟨batches_length hB _ s rfl hse, ?_⟩,
    fun hB n => nextBatchStart_stuck hB s hse n, fun hB0 => ?_⟩
  · refine ⟨(e + 1 - s).toNat, ?_⟩
    rcases nextBatchStart_exit hB s (e + 1 - s).toNat with h | h
    · exact h
    · omega
  · rw [nextBatchStart]
    omega

/-- Witness for C10 at `start = 0`, `end = 2500`, with `B = 1000` and the
degenerate `B = 0`. -/
theorem batching_loop_termination_witness :
    ((1 ≤ (1000 : Int) →
      (batches 0 2500 1000).length
          = (((2500 : Int) + 1 - 0).toNat + ((1000 : Int).toNat - 1))
              / (1000 : Int).toNat ∧
      ∃ n : Nat, 2500 < (nextBatchStart 1000 2500)^[n] 0) ∧
     ((1000 : Int) ≤ 0 → ∀ n : Nat, (nextBatchStart 1000 2500)^[n] 0 ≤ 2500) ∧
     ((1000 : Int) = 0 → nextBatchStart 1000 2500 0 = 0)) ∧
    (((1 : Int) ≤ 0 →
      (batches 0 2500 0).length
          = (((2500 : Int) + 1 - 0).toNat + ((0 : Int).toNat - 1))
              / (0 : Int).toNat ∧
      ∃ n : Nat, 2500 < (nextBatchStart 0 2500)^[n] 0) ∧
     ((0 : Int) ≤ 0 → ∀ n : Nat, (nextBatchStart 0 2500)^[n] 0 ≤ 2500) ∧
     ((0 : Int) = 0 → nextBatchStart 0 2500 0 = 0)) :=
  ⟨batching_loop_termination 0 2500 1000 (by norm_num),
   batching_loop_termination 0 2500 0 (by norm_num)⟩

/-! ### Presence and idempotence of batch inserts -/

lemma keyPresent_append (tbl₁ tbl₂ : List SpendRecord) (k : String × Int) :
    keyPresent (tbl₁ ++ tbl₂) k = (keyPresent tbl₁ k || keyPresent tbl₂ k) := by
  simp [keyPresent, List.any_append]

lemma keyPresent_insertOrIgnore_mono {tbl : List SpendRecord} {k : String × Int}
    (r : SpendRecord) (h : keyPresent tbl k = true) :
    keyPresent (insertOrIgnore tbl r) k = true := by
  rw [insertOrIgnore]
  by_cases hp : keyPresent tbl r.key
  · rw [if_pos hp]; exact h
  · rw [if_neg hp, keyPresent_append, h, Bool.true_or]

lemma keyPresent_insertOrIgnore_self (tbl : List SpendRecord) (r : SpendRecord) :
    keyPresent (insertOrIgnore tbl r) r.key = true := by
  rw [insertOrIgnore]
  by_cases hp : keyPresent tbl r.key
  · rw [if_pos hp]; exact hp
  · rw [if_neg hp, keyPresent_append]
    have : keyPresent [r] r.key = true := by
      simp [keyPresent]
    rw [this, Bool.or_true]

lemma keyPresent_insertMany_mono (rows : List SpendRecord) :
    ∀ (tbl : List SpendRecord) (k : String × Int), keyPresent tbl k = true →
      keyPresent (insertMany tbl rows) k = true := by
  induction rows with
  | nil => intro tbl k h; exact h
  | cons r rows ih =>
    intro tbl k h
    exact ih _ _ (keyPresent_insertOrIgnore_mono r h)

lemma keyPresent_insertMany_mem (rows : List SpendRecord) :
    ∀ (tbl : List SpendRecord) (r : SpendRecord), r ∈ rows →
      keyPresent (insertMany tbl rows) r.key = true := by
  induction rows with
  | nil => intro tbl r h; cases h
  | cons r' rows ih =>
    intro tbl r h
    rcases List.mem_cons.mp h with rfl | h'
    · exact keyPresent_insertMany_mono rows _ _ (keyPresent_insertOrIgnore_self tbl r)
    · exact ih _ r h'

lemma insertMany_all_present (rows : List SpendRecord) :
    ∀ tbl : List SpendRecord, (∀ r ∈ rows, keyPresent tbl r.key = true) →
      insertMany tbl rows = tbl := by
  induction rows with
  | nil => intro tbl _; rfl
  | cons r rows ih =>
    intro tbl h
    rw [insertMany, List.foldl_cons]
    have hr : insertOrIgnore tbl r = tbl := by
      rw [insertOrIgnore, if_pos (h r (List.mem_cons_self r rows))]
    rw [hr]
    exact ih tbl fun r' hr' => h r' (List.mem_cons_of_mem r hr')

/-- Re-inserting the same batch of rows is a no-op. -/
lemma insertMany_idem (tbl : List SpendRecord) (rows : List SpendRecord) :
    insertMany (insertMany tbl rows) rows = insertMany tbl rows :=
  insertMany_all_present rows _ fun r hr => keyPresent_insertMany_mem rows tbl r hr

lemma insertMany_append (tbl : List SpendRecord) (xs ys : List SpendRecord) :
    insertMany tbl (xs ++ ys) = insertMany (insertMany tbl xs) ys := by
  rw [insertMany, insertMany, insertMany, List.foldl_append]

/-! ### Durable-state bookkeeping -/

lemma processBatch_metadata (R : Remote) (s : Store) (p : Int × Int) :
    (processBatch R s p).metadata = s.metadata := rfl

lemma get_last_processBatch (R : Remote) (s : Store) (p : Int × Int) :
    get_last_processed_height (processBatch R s p) = get_last_processed_height s := rfl

lemma set_last_coinbase_spends (s : Store) (h : Int) :
    (set_last_processed_height s h).coinbase_spends = s.coinbase_spends := rfl

/-- Re-processing an already-committed batch changes nothing. -/
lemma processBatch_idem (R : Remote) (s : Store) (p : Int × Int) :
    processBatch R (processBatch R s p) p = processBatch R s p := by
  rw [processBatch, processBatch]
  simp only
  rw [insertMany_idem]

lemma durStates_head (R : Remote) (s : Store) (L : List (Int × Int)) :
    (durStates R s L).head? = some s := by
  cases L <;> rfl

lemma durStates_ne_nil (R : Remote) (s : Store) (L : List (Int × Int)) :
    durStates R s L ≠ [] := by
  cases L <;> simp [durStates]

lemma durStates_getLast (R : Remote) (L : List (Int × Int)) :
    ∀ s : Store, (durStates R s L).getLast? = some (runBatches R s L) := by
  induction L with
  | nil => intro s; rfl
  | cons p L ih =>
    intro s
    rw [durStates, runBatches]
    rw [List.getLast?_cons_cons]
    rcases hT : durStates R (set_last_processed_height (processBatch R s p) p.2) L
        with _ | ⟨t, ts⟩
    · exact absurd hT (durStates_ne_nil _ _ _)
    · have hI := ih (set_last_processed_height (processBatch R s p) p.2)
      rw [hT] at hI
      rw [List.getLast?_cons_cons]
      exact hI

/-! ### Idempotent resume -/

/-- Re-invoking `main` from any durable state of a partially completed run
finishes with the same store as the uninterrupted run. -/
lemma resume_from_durState {R : Remote} {B : Int} (hB : 1 ≤ B) :
    ∀ (n : Nat) (c : Int), (R.maxHeight - c).toNat = n →
      ∀ s : Store, get_last_processed_height s = some c →
        ∀ t ∈ durStates R s (batches (c + 1) R.maxHeight B),
          main R B t = runBatches R s (batches (c + 1) R.maxHeight B) := by
  intro n
  induction n using Nat.strong_induction_on with
  | _ n ih =>
    intro c hn s hc t ht
    by_cases hce : c + 1 ≤ R.maxHeight
    case neg =>
      rw [batches_of_not (fun hco => hce hco.1)] at ht ⊢
      simp only [durStates, List.mem_singleton] at ht
      subst ht
      rw [runBatches]
      exact main_eq_noop hc (by omega)
    case pos =>
      rw [batches_of_le hce hB] at ht ⊢
      simp only [durStates, List.mem_cons] at ht
      rcases ht with rfl | rfl | hmem
      · exact (main_eq_run hc (by omega)).trans (by rw [batches_of_le hce hB])
      · have hcu : get_last_processed_height
            (processBatch R s (c + 1, min (c + 1 + B - 1) R.maxHeight))
              = some c := hc
        rw [main_eq_run hcu (by omega), batches_of_le hce hB, runBatches,
          processBatch_idem, runBatches]
      · have hbe : c + 1 ≤ min (c + 1 + B - 1) R.maxHeight := by omega
        have hgv : get_last_processed_height
            (set_last_processed_height
              (processBatch R s (c + 1, min (c + 1 + B - 1) R.maxHeight))
              (min (c + 1 + B - 1) R.maxHeight))
              = some (min (c + 1 + B - 1) R.maxHeight) := get_set_roundtrip _ _
        have hd : (R.maxHeight - min (c + 1 + B - 1) R.maxHeight).toNat < n := by
          omega
        have hIH := ih _ hd (min (c + 1 + B - 1) R.maxHeight) rfl _ hgv t hmem
        rw [runBatches]
        exact hIH

/-- **C2.** For every run interrupted at any durable point (after any number
of fully committed batches, or mid-batch between the data commit and the
checkpoint commit), re-invoking the sync driver to completion over the same
remote dataset yields the same final store — records and checkpoint — as a
single uninterrupted run. -/
theorem idempotent_resume (R : Remote) (B : Int) (s : Store) (c : Int)
    (hB : 1 ≤ B) (hc : get_last_processed_height s = some c) :
    ∀ t ∈ mainDurStates R B s, main R B t = main R B s := by
  intro t ht
  by_cases hm : R.maxHeight ≤ c
  · rw [mainDurStates_eq_noop hc hm] at ht
    simp only [List.mem_singleton] at ht
    subst ht
    rfl
  · have hlt := not_le.mp hm
    rw [mainDurStates_eq_run hc hlt] at ht
    rw [main_eq_run hc hlt]
    exact resume_from_durState hB _ c rfl s hc t ht

/-- Witness for C2: resuming from the mid-batch state (records committed,
checkpoint not yet advanced) of a one-batch run. -/
theorem idempotent_resume_witness :
    main ⟨0, [recUnspent]⟩ 1 ⟨[recUnspent], []⟩
      = main ⟨0, [recUnspent]⟩ 1 ⟨[], []⟩ := by
  have hg : get_last_processed_height (⟨[], []⟩ : Store) = some (-1) := rfl
  refine idempotent_resume ⟨0, [recUnspent]⟩ 1 ⟨[], []⟩ (-1) (by norm_num) hg
    ⟨[recUnspent], []⟩ ?_
  rw [mainDurStates_eq_run hg (by norm_num)]
  show (⟨[recUnspent], []⟩ : Store)
      ∈ durStates ⟨0, [recUnspent]⟩ ⟨[], []⟩ (batches (-1 + 1) 0 1)
  rw [batches_of_le (by norm_num) (by norm_num)]
  rw [batches_of_not (by omega)]
  simp only [durStates]
  have hu : processBatch ⟨0, [recUnspent]⟩ ⟨[], []⟩
      (-1 + 1, min (-1 + 1 + 1 - 1) 0) = ⟨[recUnspent], []⟩ := by decide
  rw [hu]
  exact List.mem_cons_of_mem _ (List.mem_cons_self _ _)

/-! ### The checkpoint commit is separate from the data commit -/

/-- In every durable state of a run, the checkpoint never points past data:
each remote row whose creation height is at most the stored checkpoint is
already present in the store. -/
lemma ckpt_covered_aux {R : Remote} {B : Int} (hB : 1 ≤ B) :
    ∀ (n : Nat) (c : Int), (R.maxHeight - c).toNat = n →
      ∀ s : Store, get_last_processed_height s = some c →
        (∀ r ∈ R.rows, r.creation_block_height ≤ c →
          keyPresent s.coinbase_spends r.key = true) →
        ∀ t ∈ durStates R s (batches (c + 1) R.maxHeight B),
          ∀ c', get_last_processed_height t = some c' →
            ∀ r ∈ R.rows, r.creation_block_height ≤ c' →
              keyPresent t.coinbase_spends r.key = true := by
  intro n
  induction n using Nat.strong_induction_on with
  | _ n ih =>
    intro c hn s hc hinv t ht c' hc' r hr hrc
    by_cases hce : c + 1 ≤ R.maxHeight
    case neg =>
      rw [batches_of_not (fun hco => hce hco.1)] at ht
      simp only [durStates, List.mem_singleton] at ht
      subst ht
      rw [hc] at hc'
      have hcc : c = c' := by
        simpa using hc'
      exact hinv r hr (hcc ▸ hrc)
    case pos =>
      rw [batches_of_le hce hB] at ht
      simp only [durStates, List.mem_cons] at ht
      rcases ht with rfl | rfl | hmem
      · rw [hc] at hc'
        have hcc : c = c' := by
          simpa using hc'
        exact hinv r hr (hcc ▸ hrc)
      · have hcu : get_last_processed_height
            (processBatch R s (c + 1, min (c + 1 + B - 1) R.maxHeight))
              = some c := hc
        rw [hcu] at hc'
        have hcc : c = c' := by
          simpa using hc'
        exact keyPresent_insertMany_mono _ _ _ (hinv r hr (hcc ▸ hrc))
      · have hgv : get_last_processed_height
            (set_last_processed_height
              (processBatch R s (c + 1, min (c + 1 + B - 1) R.maxHeight))
              (min (c + 1 + B - 1) R.maxHeight))
              = some (min (c + 1 + B - 1) R.maxHeight) := get_set_roundtrip _ _
        have hd : (R.maxHeight - min (c + 1 + B - 1) R.maxHeight).toNat < n := by
          omega
        refine ih _ hd (min (c + 1 + B - 1) R.maxHeight) rfl _ hgv ?_ t hmem c' hc' r hr hrc
        intro r' hr' hr'c
        by_cases hle : r'.creation_block_height ≤ c
        · exact keyPresent_insertMany_mono _ _ _ (hinv r' hr' hle)
        · have hmemf : r' ∈ fetch_batch R (c + 1) (min (c + 1 + B - 1) R.maxHeight) := by
            rw [fetch_batch]
            refine List.mem_filter.mpr ⟨hr', ?_⟩
            simp only [decide_eq_true_eq]
            omega
          exact keyPresent_insertMany_mem _ _ _ hmemf

/-- **C1 (amended).** The checkpoint update is committed in a separate
transaction immediately after the batch's data commit, so a durable
intermediate state in which the batch's records are committed but the
checkpoint has not advanced does exist (see the counterexample); the
converse can never occur: in every durable state of a run, every remote row
with creation height at most the stored checkpoint is present in the
store — the checkpoint never points past data that is not durably
committed. -/
theorem checkpoint_never_past_data (R : Remote) (B : Int) (s : Store) (c : Int)
    (hB : 1 ≤ B) (hc : get_last_processed_height s = some c)
    (hinv : ∀ r ∈ R.rows, r.creation_block_height ≤ c →
      keyPresent s.coinbase_spends r.key = true) :
    ∀ t ∈ mainDurStates R B s, ∀ c', get_last_processed_height t = some c' →
      ∀ r ∈ R.rows, r.creation_block_height ≤ c' →
        keyPresent t.coinbase_spends r.key = true := by
  intro t ht c' hc' r hr hrc
  by_cases hm : R.maxHeight ≤ c
  · rw [mainDurStates_eq_noop hc hm] at ht
    simp only [List.mem_singleton] at ht
    subst ht
    rw [hc] at hc'
    have hcc : c = c' := by
      simpa using hc'
    exact hinv r hr (hcc ▸ hrc)
  · rw [mainDurStates_eq_run hc (not_le.mp hm)] at ht
    exact ckpt_covered_aux hB _ c rfl s hc hinv t ht c' hc' r hr hrc

/-- Witness for the amended C1 at the post-checkpoint state of a one-batch
run. -/
theorem checkpoint_never_past_data_witness :
    keyPresent (set_last_processed_height
        (processBatch ⟨0, [recUnspent]⟩ ⟨[], []⟩ (-1 + 1, min (-1 + 1 + 1 - 1) 0))
        (min (-1 + 1 + 1 - 1) 0)).coinbase_spends recUnspent.key = true := by
  have hg : get_last_processed_height (⟨[], []⟩ : Store) = some (-1) := rfl
  refine checkpoint_never_past_data ⟨0, [recUnspent]⟩ 1 ⟨[], []⟩ (-1) (by norm_num)
    hg (by decide) _ ?_ (min (-1 + 1 + 1 - 1) 0) (get_set_roundtrip _ _)
    recUnspent (by decide) (by decide)
  rw [mainDurStates_eq_run hg (by norm_num)]
  show set_last_processed_height
      (processBatch ⟨0, [recUnspent]⟩ ⟨[], []⟩ (-1 + 1, min (-1 + 1 + 1 - 1) 0))
      (min (-1 + 1 + 1 - 1) 0)
    ∈ durStates ⟨0, [recUnspent]⟩ ⟨[], []⟩ (batches (-1 + 1) 0 1)
  rw [batches_of_le (by norm_num) (by norm_num)]
  rw [batches_of_not (by omega)]
  simp only [durStates]
  exact List.mem_cons_of_mem _
    (List.mem_cons_of_mem _ (List.mem_cons_self _ _))

/-- **C1 (counterexample).** The claim as stated is false: the run over a
one-row remote passes through the durable state `⟨[recUnspent], []⟩` in
which the batch `[0, 0]`'s records are fully committed while the checkpoint
still reads `-1`, not the batch end `0` — the data commit and the
checkpoint commit are separate durable transactions. -/
theorem checkpoint_commit_not_atomic :
    (⟨[recUnspent], []⟩ : Store) ∈ mainDurStates ⟨0, [recUnspent]⟩ 1 ⟨[], []⟩ ∧
    (⟨[recUnspent], []⟩ : Store).coinbase_spends
        = insertMany ([] : List SpendRecord) (fetch_batch ⟨0, [recUnspent]⟩ 0 0) ∧
    get_last_processed_height ⟨[recUnspent], []⟩ = some (-1) ∧
    ((-1 : Int) ≠ 0) := by
  refine ⟨?_, by decide, rfl, by decide⟩
  have hg : get_last_processed_height (⟨[], []⟩ : Store) = some (-1) := rfl
  rw [mainDurStates_eq_run hg (by norm_num)]
  show (⟨[recUnspent], []⟩ : Store)
      ∈ durStates ⟨0, [recUnspent]⟩ ⟨[], []⟩ (batches (-1 + 1) 0 1)
  rw [batches_of_le (by norm_num) (by norm_num)]
  rw [batches_of_not (by omega)]
  simp only [durStates]
  have hu : processBatch ⟨0, [recUnspent]⟩ ⟨[], []⟩
      (-1 + 1, min (-1 + 1 + 1 - 1) 0) = ⟨[recUnspent], []⟩ := by decide
  rw [hu]
  exact List.mem_cons_of_mem _ (List.mem_cons_self _ _)

/-! ### Failure paths

`BadRequest` on `fetch_batch` makes `main` return; `GoogleAPICallError` and
any exception raised while normalizing the batch's rows propagate and kill
the process.  All three fire before the batch's `executemany`/`commit`, so
the batch leaves no durable trace.  The fault oracle `F` tells, per batch
range, whether that batch's fetch/normalization raises and with which
error. -/

/-- The error taxonomy of the failing batch paths. -/
inductive SyncError where
  | remoteUnavailable
  | invalidQuery
  | normalizationError
deriving DecidableEq, Repr

/-- The batching loop with fault injection: a faulty batch aborts the run
before any of its durable writes, returning the store as of the last
committed batch. -/
def runBatchesE (F : Int → Int → Option SyncError) (R : Remote) :
    Store → List (Int × Int) → Store × Option SyncError
  | s, [] => (s, none)
  | s, p :: rest =>
    match F p.1 p.2 with
    | some err => (s, some err)
    | none =>
        runBatchesE F R (set_last_processed_height (processBatch R s p) p.2) rest

/-- One invocation of `main` with fault injection. -/
def mainE (F : Int → Int → Option SyncError) (R : Remote) (B : Int)
    (s : Store) : Store × Option SyncError :=
  match get_last_processed_height s with
  | none => (s, none)
  | some last =>
    if R.maxHeight ≤ last then (s, none)
    else runBatchesE F R s (batches (last + 1) R.maxHeight B)

lemma mainE_eq_run {F : Int → Int → Option SyncError} {R : Remote} {B : Int}
    {s : Store} {c : Int}
    (hc : get_last_processed_height s = some c) (hlt : c < R.maxHeight) :
    mainE F R B s = runBatchesE F R s (batches (c + 1) R.maxHeight B) := by
  rw [mainE]
  simp only [hc]
  rw [if_neg (not_le.mpr hlt)]

lemma runBatchesE_stop {F : Int → Int → Option SyncError} {R : Remote}
    {err : SyncError} :
    ∀ (L : List (Int × Int)) (k : Nat), k < L.length →
      ∀ s : Store,
        (∀ i, i < k → ∀ p, L.get? i = some p → F p.1 p.2 = none) →
        (∀ p, L.get? k = some p → F p.1 p.2 = some err) →
        runBatchesE F R s L = (runBatches R s (L.take k), some err) := by
  intro L
  induction L with
  | nil =>
    intro k hk
    exact absurd hk (by simp)
  | cons p rest ih =>
    intro k hk s hok herr
    cases k with
    | zero =>
      rw [runBatchesE]
      rw [herr p rfl]
      rw [List.take_zero, runBatches]
    | succ k' =>
      have hF : F p.1 p.2 = none := hok 0 (Nat.zero_lt_succ k') p rfl
      rw [runBatchesE]
      rw [hF]
      rw [List.take_succ_cons, runBatches]
      exact ih k' (by simpa using hk) _
        (fun i hik q hq => hok (i + 1) (by omega) q hq)
        (fun q hq => herr q hq)

lemma runBatches_spends {R : Remote} :
    ∀ (L : List (Int × Int)) (s : Store),
      (runBatches R s L).coinbase_spends
        = insertMany s.coinbase_spends
            (L.flatMap fun p => fetch_batch R p.1 p.2) := by
  intro L
  induction L with
  | nil => intro s; rfl
  | cons p rest ih =>
    intro s
    rw [runBatches, ih, List.flatMap_cons, insertMany_append]
    rfl

lemma get_last_runBatches {R : Remote} :
    ∀ (L : List (Int × Int)) (s : Store), L ≠ [] →
      get_last_processed_height (runBatches R s L)
        = (L.getLast?).map fun p => p.2 := by
  intro L
  induction L with
  | nil => intro s h; exact absurd rfl h
  | cons p rest ih =>
    intro s _
    cases rest with
    | nil =>
      rw [runBatches, runBatches]
      exact get_set_roundtrip _ _
    | cons q rest' =>
      rw [runBatches, List.getLast?_cons_cons]
      exact ih _ (by simp)

/-- **C4.** If any batch fails with `RemoteUnavailable`, `InvalidQuery` or
`NormalizationError`, the run aborts immediately; the store then holds
exactly the records of the previously committed batches and the checkpoint
equals the end height of the last committed batch (the pre-run state when no
batch committed). -/
theorem abort_preserves_commit_boundary
    (F : Int → Int → Option SyncError) (R : Remote) (B : Int) (s : Store)
    (c : Int) (err : SyncError)
    (hc : get_last_processed_height s = some c) (hlt : c < R.maxHeight)
    (k : Nat) (hk : k < (batches (c + 1) R.maxHeight B).length)
    (hok : ∀ i, i < k → ∀ p, (batches (c + 1) R.maxHeight B).get? i = some p →
      F p.1 p.2 = none)
    (herr : ∀ p, (batches (c + 1) R.maxHeight B).get? k = some p →
      F p.1 p.2 = some err) :
    mainE F R B s
        = (runBatches R s ((batches (c + 1) R.maxHeight B).take k), some err) ∧
    (runBatches R s ((batches (c + 1) R.maxHeight B).take k)).coinbase_spends
        = insertMany s.coinbase_spends
            (((batches (c + 1) R.maxHeight B).take k).flatMap
              fun p => fetch_batch R p.1 p.2) ∧
    (k = 0 → runBatches R s ((batches (c + 1) R.maxHeight B).take k) = s) ∧
    (0 < k → get_last_processed_height
        (runBatches R s ((batches (c + 1) R.maxHeight B).take k))
        = ((((batches (c + 1) R.maxHeight B).take k).getLast?).map
            fun p => p.2)) := by
  refine ⟨(mainE_eq_run hc hlt).trans
      (runBatchesE_stop _ k hk s hok herr),
    runBatches_spends _ s, ?_, ?_⟩
  · intro h0
    subst h0
    rw [List.take_zero, runBatches]
  · intro hk0
    refine get_last_runBatches _ s ?_
    have hlen : ((batches (c + 1) R.maxHeight B).take k).length = k := by
      rw [List.length_take]
      omega
    intro hnil
    rw [hnil] at hlen
    simp at hlen
    omega

/-- A coinbase row at height 1. -/
def recH1 : SpendRecord := ⟨"b", 0, 60, 1, "t1b", none, none, none⟩

/-- A coinbase row at height 2. -/
def recH2 : SpendRecord := ⟨"c", 0, 70, 2, "t2c", none, none, none⟩

lemma batches_concrete3 :
    batches (-1 + 1) (Remote.mk 2 [recUnspent, recH1, recH2]).maxHeight 1
      = [(0, 0), (1, 1), (2, 2)] := by
  show batches (-1 + 1) 2 1 = [(0, 0), (1, 1), (2, 2)]
  have h0 : (-1 : Int) + 1 = 0 := by norm_num
  have hA : batches (0 : Int) 2 1 = (0, 0) :: batches 1 2 1 := by
    rw [batches_of_le (by norm_num) (by norm_num)]
    have hm : min (0 + 1 - 1 : Int) 2 = 0 := by omega
    rw [hm]
    norm_num
  have hB1 : batches (1 : Int) 2 1 = (1, 1) :: batches 2 2 1 := by
    rw [batches_of_le (by norm_num) (by norm_num)]
    have hm : min (1 + 1 - 1 : Int) 2 = 1 := by omega
    rw [hm]
    norm_num
  have hC : batches (2 : Int) 2 1 = [(2, 2)] := by
    rw [batches_of_le (by norm_num) (by norm_num)]
    have hm : min (2 + 1 - 1 : Int) 2 = 2 := by omega
    rw [hm, batches_of_not (by norm_num)]
  rw [h0, hA, hB1, hC]

/-- Witness for C4: batch 2 of 3 raises `RemoteUnavailable`; the store keeps
exactly batch 1's records and the checkpoint reads batch 1's end height. -/
theorem abort_preserves_commit_boundary_witness :
    mainE (fun a _ => if a = 1 then some SyncError.remoteUnavailable else none)
        ⟨2, [recUnspent, recH1, recH2]⟩ 1 ⟨[], []⟩
      = (⟨[recUnspent], [("last_processed_height", "0")]⟩,
          some SyncError.remoteUnavailable) := by
  have hg : get_last_processed_height (⟨[], []⟩ : Store) = some (-1) := rfl
  have hk4 : 1 < (batches (-1 + 1)
      (Remote.mk 2 [recUnspent, recH1, recH2]).maxHeight 1).length := by
    rw [batches_concrete3]
    norm_num
  have hok4 : ∀ i, i < 1 → ∀ q : Int × Int,
      (batches (-1 + 1)
        (Remote.mk 2 [recUnspent, recH1, recH2]).maxHeight 1).get? i = some q →
      (fun a _ => if a = 1 then some SyncError.remoteUnavailable else none :
        Int → Int → Option SyncError) q.1 q.2 = none := by
    intro i hik q hq
    interval_cases i
    rw [batches_concrete3] at hq
    simp at hq
    rw [← hq]
    decide
  have herr4 : ∀ q : Int × Int,
      (batches (-1 + 1)
        (Remote.mk 2 [recUnspent, recH1, recH2]).maxHeight 1).get? 1 = some q →
      (fun a _ => if a = 1 then some SyncError.remoteUnavailable else none :
        Int → Int → Option SyncError) q.1 q.2
        = some SyncError.remoteUnavailable := by
    intro q hq
    rw [batches_concrete3] at hq
    simp at hq
    rw [← hq]
    decide
  have happ := (abort_preserves_commit_boundary
      (fun a _ => if a = 1 then some SyncError.remoteUnavailable else none)
      ⟨2, [recUnspent, recH1, recH2]⟩ 1 ⟨[], []⟩ (-1)
      SyncError.remoteUnavailable hg (by decide) 1 hk4 hok4 herr4).1
  refine happ.trans ?_
  rw [batches_concrete3]
  decide

/-! ### The scalar normalizer `to_int`

`to_int` is Python's `int(value)` guarded by `None`: `None` passes through,
numeric scalars are cast with `int()` — which truncates non-integral values
toward zero — and only non-convertible scalars (e.g. NaN) raise, killing
the batch.  Warehouse numerics are modelled as exact rationals. -/

/-- A warehouse-native scalar as it reaches `to_int`. -/
inductive BQScalar where
  | null
  | num (q : ℚ)
  | nan
deriving DecidableEq

/-- Python `int()` on a number: truncation toward zero. -/
def pyTrunc (q : ℚ) : Int := if 0 ≤ q then ⌊q⌋ else ⌈q⌉

/-- `to_int`: `None` unchanged, numerics cast with `int(value)`, anything
not convertible raises (modelled as `NormalizationError`, the spec's name
for the fatal cast failure). -/
def to_int : BQScalar → Except SyncError (Option Int)
  | .null => .ok none
  | .num q => .ok (some (pyTrunc q))
  | .nan => .error SyncError.normalizationError

lemma pyTrunc_seven_halves : pyTrunc ((7 : ℚ) / 2) = 3 := by
  rw [pyTrunc, if_pos (by norm_num)]
  norm_num [Int.floor_eq_iff]

/-- **C3 (counterexample).** The claim as stated is false: the numeric value
`7/2` has no exact integer representation, yet `to_int` succeeds and returns
the silently truncated value `3` instead of failing. -/
theorem to_int_silent_truncation :
    to_int (BQScalar.num ((7 : ℚ) / 2)) = Except.ok (some 3) ∧
    ¬ ∃ m : Int, ((m : ℚ)) = (7 : ℚ) / 2 := by
  constructor
  · show Except.ok (some (pyTrunc ((7 : ℚ) / 2)))
        = (Except.ok (some 3) : Except SyncError (Option Int))
    rw [pyTrunc_seven_halves]
  · rintro ⟨m, hm⟩
    have hd : ((m : ℚ)).den = 1 := Rat.den_intCast m
    rw [hm] at hd
    norm_num [Rat.den] at hd

/-- **C3 (amended).** `to_int` never fails on numeric values: it silently
truncates non-integral numerics toward zero (Python `int()` semantics),
returns exact integers unchanged and passes `None` through; only a
non-convertible scalar raises `NormalizationError`, and a batch whose
fetch/normalization raises aborts with no records committed and no
checkpoint advance — the durable state stays exactly the state after the
last committed batch. -/
theorem to_int_truncates_not_fails
    (F : Int → Int → Option SyncError) (R : Remote) (s : Store)
    (p : Int × Int) (rest : List (Int × Int)) (err : SyncError)
    (hf : F p.1 p.2 = some err) :
    (∀ n : Int, to_int (BQScalar.num ((n : ℚ))) = Except.ok (some n)) ∧
    (∀ q : ℚ, to_int (BQScalar.num q) = Except.ok (some (pyTrunc q))) ∧
    to_int BQScalar.null = Except.ok none ∧
    to_int BQScalar.nan = Except.error SyncError.normalizationError ∧
    runBatchesE F R s (p :: rest) = (s, some err) := by
  refine ⟨?_, fun q => rfl, rfl, rfl, ?_⟩
  · intro n
    show Except.ok (some (pyTrunc ((n : ℚ))))
        = (Except.ok (some n) : Except SyncError (Option Int))
    rw [pyTrunc]
    by_cases h : (0 : ℚ) ≤ (n : ℚ)
    · rw [if_pos h, Int.floor_intCast]
    · rw [if_neg h, Int.ceil_intCast]
  · rw [runBatchesE, hf]

/-- Witness for the amended C3, with a normalization failure on the very
first batch of a run. -/
theorem to_int_truncates_not_fails_witness :
    (∀ n : Int, to_int (BQScalar.num ((n : ℚ))) = Except.ok (some n)) ∧
    (∀ q : ℚ, to_int (BQScalar.num q) = Except.ok (some (pyTrunc q))) ∧
    to_int BQScalar.null = Except.ok none ∧
    to_int BQScalar.nan = Except.error SyncError.normalizationError ∧
    runBatchesE (fun _ _ => some SyncError.normalizationError)
        ⟨0, [recUnspent]⟩ ⟨[], []⟩ [(0, 0)]
      = (⟨[], []⟩, some SyncError.normalizationError) :=
  to_int_truncates_not_fails (fun _ _ => some SyncError.normalizationError)
    ⟨0, [recUnspent]⟩ ⟨[], []⟩ (0, 0) [] SyncError.normalizationError rfl

/-! ### Checkpoint monotonicity across the lifetime of the store -/

/-- The checkpoint value of a store (`-1` when absent, matching the code's
default). -/
def ckptVal (s : Store) : Int := (get_last_processed_height s).getD (-1)

/-- Every durable state the store passes through over a sequence of sync
passes. -/
def lifetimeStates : Store → List (Remote × Int) → List Store
  | _, [] => []
  | s, p :: rest => mainDurStates p.1 p.2 s ++ lifetimeStates (main p.1 p.2 s) rest

lemma ckptVal_of_get {s : Store} {c : Int}
    (hc : get_last_processed_height s = some c) : ckptVal s = c := by
  rw [ckptVal, hc]
  rfl

lemma durStates_ckpt_chain {R : Remote} {B : Int} (hB : 1 ≤ B) :
    ∀ (n : Nat) (c : Int), (R.maxHeight - c).toNat = n →
      ∀ s : Store, get_last_processed_height s = some c →
        List.Chain' (fun a b => ckptVal a ≤ ckptVal b)
          (durStates R s (batches (c + 1) R.maxHeight B)) := by
  intro n
  induction n using Nat.strong_induction_on with
  | _ n ih =>
    intro c hn s hc
    by_cases hce : c + 1 ≤ R.maxHeight
    case neg =>
      rw [batches_of_not (fun hco => hce hco.1)]
      exact List.chain'_singleton s
    case pos =>
      rw [batches_of_le hce hB]
      rw [durStates]
      have hcu : get_last_processed_height
          (processBatch R s (c + 1, min (c + 1 + B - 1) R.maxHeight))
            = some c := hc
      have hgv : get_last_processed_height
          (set_last_processed_height
            (processBatch R s (c + 1, min (c + 1 + B - 1) R.maxHeight))
            (min (c + 1 + B - 1) R.maxHeight))
            = some (min (c + 1 + B - 1) R.maxHeight) := get_set_roundtrip _ _
      refine List.chain'_cons.mpr ⟨?_, ?_⟩
      · rw [ckptVal_of_get hc, ckptVal_of_get hcu]
      · refine List.chain'_cons'.mpr ⟨?_, ?_⟩
        · intro b hb
          rw [durStates_head] at hb
          simp only [Option.mem_def, Option.some.injEq] at hb
          subst hb
          rw [ckptVal_of_get hcu, ckptVal_of_get hgv]
          omega
        · have hd : (R.maxHeight - min (c + 1 + B - 1) R.maxHeight).toNat < n := by
            omega
          exact ih _ hd (min (c + 1 + B - 1) R.maxHeight) rfl _ hgv

lemma mainDurStates_ckpt_chain {R : Remote} {B : Int} {s : Store} {c : Int}
    (hB : 1 ≤ B) (hc : get_last_processed_height s = some c) :
    List.Chain' (fun a b => ckptVal a ≤ ckptVal b) (mainDurStates R B s) := by
  by_cases hm : R.maxHeight ≤ c
  · rw [mainDurStates_eq_noop hc hm]
    exact List.chain'_singleton s
  · rw [mainDurStates_eq_run hc (not_le.mp hm)]
    exact durStates_ckpt_chain hB _ c rfl s hc

lemma mainDurStates_head (R : Remote) (B : Int) (s : Store) :
    (mainDurStates R B s).head? = some s := by
  cases hg : get_last_processed_height s with
  | none =>
    rw [mainDurStates]
    simp only [hg, List.head?_cons]
  | some c =>
    by_cases hm : R.maxHeight ≤ c
    · rw [mainDurStates_eq_noop hg hm]
      rfl
    · rw [mainDurStates_eq_run hg (not_le.mp hm)]
      exact durStates_head _ _ _

lemma mainDurStates_getLast {R : Remote} {B : Int} {s : Store} {c : Int}
    (hc : get_last_processed_height s = some c) :
    (mainDurStates R B s).getLast? = some (main R B s) := by
  by_cases hm : R.maxHeight ≤ c
  · rw [mainDurStates_eq_noop hc hm, main_eq_noop hc hm]
    rfl
  · rw [mainDurStates_eq_run hc (not_le.mp hm),
      main_eq_run hc (not_le.mp hm)]
    exact durStates_getLast _ _ _

/-- One sync pass can only move the checkpoint up. -/
lemma main_wf {R : Remote} {B : Int} {s : Store} {c : Int} (hB : 1 ≤ B)
    (hc : get_last_processed_height s = some c) :
    ∃ c', get_last_processed_height (main R B s) = some c' ∧ c ≤ c' := by
  by_cases hm : R.maxHeight ≤ c
  · rw [main_eq_noop hc hm]
    exact ⟨c, hc, le_refl c⟩
  · rw [main_eq_run hc (not_le.mp hm)]
    have hne : batches (c + 1) R.maxHeight B ≠ [] := by
      rw [batches_of_le (by omega) hB]
      simp
    rw [get_last_runBatches _ s hne]
    rcases hL : (batches (c + 1) R.maxHeight B).getLast? with _ | p
    · exact absurd (List.getLast?_eq_none_iff.mp hL) hne
    · have hmem := List.mem_of_getLast?_eq_some hL
      have hp := batches_mem _ (c + 1) rfl p hmem
      exact ⟨p.2, by rw [Option.map_some'], by omega⟩

lemma lifetimeStates_chain :
    ∀ (runs : List (Remote × Int)) (s : Store) (c : Int),
      get_last_processed_height s = some c → (∀ p ∈ runs, 1 ≤ p.2) →
      List.Chain' (fun a b => ckptVal a ≤ ckptVal b) (lifetimeStates s runs) := by
  intro runs
  induction runs with
  | nil => intro s c _ _; exact List.chain'_nil
  | cons p rest ih =>
    intro s c hc hB
    have hB1 : 1 ≤ p.2 := hB p (List.mem_cons_self p rest)
    obtain ⟨c', hc', hcc'⟩ := main_wf (R := p.1) (B := p.2) hB1 hc
    rw [lifetimeStates]
    refine List.Chain'.append (mainDurStates_ckpt_chain hB1 hc)
      (ih _ c' hc' fun q hq => hB q (List.mem_cons_of_mem p hq)) ?_
    intro x hx y hy
    rw [mainDurStates_getLast hc] at hx
    simp only [Option.mem_def, Option.some.injEq] at hx
    subst hx
    cases rest with
    | nil => simp [lifetimeStates] at hy
    | cons q rest' =>
      rcases hM : mainDurStates q.1 q.2 (main p.1 p.2 s) with _ | ⟨z, zs⟩
      · have := mainDurStates_head q.1 q.2 (main p.1 p.2 s)
        rw [hM] at this
        simp at this
      · rw [lifetimeStates, hM] at hy
        have hz : z = main p.1 p.2 s := by
          have := mainDurStates_head q.1 q.2 (main p.1 p.2 s)
          rw [hM] at this
          simpa using this
        simp only [List.cons_append, List.head?_cons, Option.mem_def,
          Option.some.injEq] at hy
        rw [← hy, hz]

/-- **C7.** Across every sequence of runs over the lifetime of the store,
`last_processed_height` never decreases, and after each committed batch it
equals the end height of the most recently committed batch. -/
theorem checkpoint_monotone (runs : List (Remote × Int)) (s : Store) (c : Int)
    (hc : get_last_processed_height s = some c)
    (hB : ∀ p ∈ runs, 1 ≤ p.2) :
    List.Chain' (fun a b => ckptVal a ≤ ckptVal b) (lifetimeStates s runs) ∧
    (∀ (R : Remote) (t : Store) (L : List (Int × Int)), L ≠ [] →
      get_last_processed_height (runBatches R t L)
        = (L.getLast?).map fun p => p.2) :=
  ⟨lifetimeStates_chain runs s c hc hB,
   fun _ t L h => get_last_runBatches L t h⟩

/-- Witness for C7 over one sync pass against a one-row remote. -/
theorem checkpoint_monotone_witness :
    List.Chain' (fun a b => ckptVal a ≤ ckptVal b)
      (lifetimeStates ⟨[], []⟩ [(⟨0, [recUnspent]⟩, 1)]) ∧
    (∀ (R : Remote) (t : Store) (L : List (Int × Int)), L ≠ [] →
      get_last_processed_height (runBatches R t L)
        = (L.getLast?).map fun p => p.2) :=
  checkpoint_monotone [(⟨0, [recUnspent]⟩, 1)] ⟨[], []⟩ (-1) rfl (by decide)

end Collector
